import Mathlib

/-!
# quizgo: a timed command-line quiz (`main.go`)

A shallow embedding of `main.go` and a verification of its specification.

Modelling conventions.

* A Go `string` is modelled by a Lean `String`, read as its sequence of runes
  (`String.data : List Char`).  Text is taken to be valid UTF-8; Go's
  replacement of invalid bytes by U+FFFD is outside the model.
* Go `int` values that occur (`score`, loop indices, `len(problems)`) are
  bounded by the length of a slice, so they never overflow; they are `Nat`.
  `timeLimit` may be negative and is an `Int`.
* The Unicode lower-case table used by `unicode.ToLower` above U+007F is not
  part of the repository.  It is a parameter `tbl : Char → Char` of every
  definition that lower-cases text; the ASCII branch is the concrete code of
  the Go library.
* Standard input is the list of runes still to be read, followed by a
  permanent end-of-stream.  `fmt.Scanln` is modelled after the scanner of the
  Go library (`ss.SkipSpace`, `ss.convertString`, `ss.doScan`); `os.Stdin` has
  no `UnreadRune`, so a rune the scanner has read is gone from the stream.
* The `select` statement of `startQuiz` is resolved by an oracle
  `timerFirst : Nat → Bool`: `timerFirst i = true` means that in iteration `i`
  the receive from `timer.C` wins the race against the receive from
  `answerChan`.
* Time is counted in nanoseconds from the call of `time.NewTimer`
  (main.go 109).  On a clock the oracle is no longer free: `timerWins` decides
  each `select` by comparing the instant at which the answer is offered on
  `answerChan` with the one instant `timer` at which `timer.C` delivers.  The
  read of a question is started right before its `select` (main.go 116-121)
  and is taken to deliver after the `select` has been entered.
-/

namespace Quizgo

/-! ## Text: `unicode.IsSpace`, `strings.ToLower`, `strings.TrimSpace` -/

/-- White space as decided by `unicode.IsSpace` (and by the identical table
`space` of package `fmt`): U+0009..U+000D, U+0020, U+0085, U+00A0, U+1680,
U+2000..U+200A, U+2028, U+2029, U+202F, U+205F, U+3000. -/
def isSpace (c : Char) : Bool :=
  let r := c.toNat
  (0x09 ≤ r && r ≤ 0x0d) || r == 0x20 || r == 0x85 || r == 0xa0 || r == 0x1680 ||
    (0x2000 ≤ r && r ≤ 0x200a) || r == 0x2028 || r == 0x2029 || r == 0x202f ||
    r == 0x205f || r == 0x3000

/-- The function `unicode.ToLower`: runes up to `MaxASCII` are handled by the
explicit `'A' <= r && r <= 'Z'` test, every other rune goes through the
Unicode case table `tbl` (`To(LowerCase, r)`). -/
def toLowerRune (tbl : Char → Char) (c : Char) : Char :=
  if c.toNat ≤ 0x7F then
    if 'A'.toNat ≤ c.toNat ∧ c.toNat ≤ 'Z'.toNat then Char.ofNat (c.toNat + ('a'.toNat - 'A'.toNat))
    else c
  else tbl c

/-- The function `strings.ToLower`: every rune is mapped by `unicode.ToLower`
(the ASCII fast path of the library computes the same string). -/
def ToLower (tbl : Char → Char) (s : String) : String :=
  ⟨s.data.map (toLowerRune tbl)⟩

/-- The function `strings.TrimSpace`: the slice of `s` with all leading and
all trailing white space removed. -/
def TrimSpace (s : String) : String :=
  ⟨(s.data.dropWhile isSpace).rdropWhile isSpace⟩

/-- Source `normalizeString` (main.go 140-143). -/
def normalizeString (tbl : Char → Char) (s : String) : String :=
  TrimSpace (ToLower tbl s)

/-! ## Loading: `parseFile` -/

/-- Source `Problem` (main.go 28-31). -/
structure Problem where
  question : String
  answer : String
  deriving DecidableEq

/-- The errors `parseFile` can return. -/
inductive QuizError where
  /-- The error of `os.Open`. -/
  | openFailed
  /-- The error `csv.ErrFieldCount` returned by `csv.Reader.Read`. -/
  | fieldCount
  /-- The error `errors.New("each line must have two fields")`. -/
  | twoFields
  deriving DecidableEq

/-- The field-count bookkeeping that ends `csv.Reader.readRecord`, for a reader
made by `csv.NewReader` (`FieldsPerRecord` starts at 0): a positive
`FieldsPerRecord` is compared with the record's length (a mismatch is
`ErrFieldCount`), and a zero `FieldsPerRecord` is set from the record.  The
result is the error flag and the new `FieldsPerRecord`. -/
def checkFieldCount (FieldsPerRecord : Nat) (record : List String) : Bool × Nat :=
  if FieldsPerRecord > 0 then (record.length != FieldsPerRecord, FieldsPerRecord)
  else (false, record.length)

/-- The `for` loop of `parseFile` (main.go 72-88) over the records the CSV
reader still has to deliver; the empty list is `io.EOF`.  The result is the
pair `([]Problem, error)` the function returns, `nil` being `[]`. -/
def parseLoop (tbl : Char → Char) :
    List (List String) → Nat → List Problem → List Problem × Option QuizError
  | [], _, problems => (problems, none)
  | record :: rest, FieldsPerRecord, problems =>
    match checkFieldCount FieldsPerRecord record with
    | (true, _) => ([], some QuizError.fieldCount)
    | (false, FieldsPerRecord1) =>
      match record with
      | [q, a] =>
        parseLoop tbl rest FieldsPerRecord1 (problems ++ [⟨q, normalizeString tbl a⟩])
      | _ => ([], some QuizError.twoFields)

/-- Source `parseFile` (main.go 64-91).  The data source is `none` when
`os.Open` fails and otherwise the sequence of records the CSV reader parses
from the file (syntax errors inside a record are not modelled). -/
def parseFile (tbl : Char → Char) (source : Option (List (List String))) :
    List Problem × Option QuizError :=
  match source with
  | none => ([], some QuizError.openFailed)
  | some records => parseLoop tbl records 0 []

/-! ## Shuffling: `shuffleProblems` -/

/-- The swap closure handed to `rand.Shuffle` (main.go 94-96):
`problems[i], problems[j] = problems[j], problems[i]`.  Indices outside the
slice panic in Go; `rand.Shuffle` never produces them and the model leaves the
slice alone there. -/
def swap (problems : List Problem) (i j : Nat) : List Problem :=
  match problems[i]?, problems[j]? with
  | some a, some b => (problems.set i b).set j a
  | _, _ => problems

/-- The loop of `rand.Shuffle`: `for i := n - 1; i > 0; i-- { j := Intn(i+1); swap(i, j) }`.
The first argument is the current `i`; `rnd i` is the raw value the generator
delivers at that step, reduced into `[0, i]` as `Int63n` and `int31n` do. -/
def shuffleLoop (rnd : Nat → Nat) : Nat → List Problem → List Problem
  | 0, problems => problems
  | i + 1, problems => shuffleLoop rnd i (swap problems (i + 1) (rnd (i + 1) % (i + 2)))

/-- Source `shuffleProblems` (main.go 93-97). -/
def shuffleProblems (rnd : Nat → Nat) (problems : List Problem) : List Problem :=
  shuffleLoop rnd (problems.length - 1) problems

/-! ## Reading an answer: `fmt.Scanln` and `scanNormalized` -/

/-- The errors of `fmt.Scanln`. -/
inductive ScanError where
  /-- The error "unexpected newline": a newline where an operand should start. -/
  | unexpectedNewline
  /-- The error `io.EOF`: no input left where an operand should start. -/
  | eof
  /-- The error "expected newline": text after the last operand. -/
  | expectedNewline
  deriving DecidableEq

/-- The method `ss.SkipSpace` of package `fmt` with `nlIsSpace = false`: at
end-of-stream it returns, a newline is the error "unexpected newline" (the
newline is consumed), other white space is skipped (a carriage return before a
newline included), and the first other rune is put back. -/
def SkipSpace : List Char → Option ScanError × List Char
  | [] => (none, [])
  | c :: rest =>
    if c = '\n' then (some ScanError.unexpectedNewline, rest)
    else if isSpace c then SkipSpace rest
    else (none, c :: rest)

/-- The loop that ends `ss.doScan` when `nlIsEnd` holds: after the last operand
only white space may precede the newline or the end of the stream.  A rune
that is not white space is the error "expected newline"; it has been read and
is not put back. -/
def expectNewline : List Char → Option ScanError × List Char
  | [] => (none, [])
  | c :: rest =>
    if c = '\n' then (none, rest)
    else if isSpace c then expectNewline rest
    else (some ScanError.expectedNewline, rest)

/-- The call `fmt.Scanln(s)` with one `*string` operand, on the runes still to
be read from standard input.  `convertString` skips white space, fails with
`io.EOF` at the end of the stream, and otherwise stores the next word (the
runes up to the next white space) in the operand; on an error raised before
that the operand keeps its old value.  The result is the operand, the error
and the input left. -/
def Scanln (stdin : List Char) (s : String) : (String × Option ScanError) × List Char :=
  match SkipSpace stdin with
  | (some e, rest) => ((s, some e), rest)
  | (none, []) => ((s, some ScanError.eof), [])
  | (none, c :: rest) =>
    let word := (c :: rest).takeWhile (fun r => !isSpace r)
    let (err, rest1) := expectNewline ((c :: rest).dropWhile (fun r => !isSpace r))
    ((⟨word⟩, err), rest1)

/-- Source `scanNormalized` (main.go 135-138): the error of `fmt.Scanln` is
dropped and whatever the operand holds afterwards is normalised. -/
def scanNormalized (tbl : Char → Char) (stdin : List Char) (s : String) :
    String × List Char :=
  let ((s1, _), rest) := Scanln stdin s
  (normalizeString tbl s1, rest)

/-! ## The session: `startQuiz` -/

/-- What `startQuiz` writes to standard output, one constructor per print
statement. -/
inductive Output where
  | welcome
  | questions (count : Nat)
  | limit (timeLimit : Int)
  | prompt (number : Nat) (question : String)
  | outOfTime
  | scored (score total : Nat)
  deriving DecidableEq

/-- The text of each print statement of `startQuiz`. -/
def Output.render : Output → String
  | Output.welcome => "Welcome to the quiz!\n"
  | Output.questions count =>
    "You will be presented with " ++ toString count ++ " questions.\n"
  | Output.limit timeLimit =>
    "Try to answer as much as possible in " ++ toString timeLimit ++ " seconds\n"
  | Output.prompt number question =>
    "Problem #" ++ toString number ++ ": " ++ question ++ " = "
  | Output.outOfTime => "\nYou ran out of time!\n"
  | Output.scored score total =>
    "You scored " ++ toString score ++ " out of " ++ toString total ++ ".\n"

/-- The variables of `startQuiz` together with its surroundings: the input
left on standard input, the variables `answer` and `score` declared before the
loop (main.go 104-107), what has been printed, and whether the loop was left
through `break problems_loop`. -/
structure QuizState where
  stdin : List Char
  answer : String
  score : Nat
  out : List Output
  timedOut : Bool
  deriving DecidableEq

/-- The loop `problems_loop` (main.go 112-130) over the problems still to be
presented, `i` being the index of the first of them.  When the timer wins the
`select` the loop is left; the read started for that question is abandoned and
its effect on `stdin` and `answer` is not observed by anything that follows. -/
def problemsLoop (tbl : Char → Char) (timerFirst : Nat → Bool) :
    List Problem → Nat → QuizState → QuizState
  | [], _, st => st
  | p :: rest, i, st =>
    let st1 := { st with out := st.out ++ [Output.prompt (i + 1) p.question] }
    if timerFirst i then
      { st1 with out := st1.out ++ [Output.outOfTime], timedOut := true }
    else
      let (answer, stdin) := scanNormalized tbl st1.stdin st1.answer
      let st2 := { st1 with stdin := stdin, answer := answer }
      let st3 := if answer = p.answer then { st2 with score := st2.score + 1 } else st2
      problemsLoop tbl timerFirst rest (i + 1) st3

/-- The state in which `startQuiz` enters the loop. -/
def initialState (timeLimit : Int) (stdin : List Char) (problems : List Problem) :
    QuizState :=
  { stdin := stdin, answer := "", score := 0,
    out := [Output.welcome, Output.questions problems.length, Output.limit timeLimit],
    timedOut := false }

/-- Source `startQuiz` (main.go 99-133). -/
def startQuiz (tbl : Char → Char) (timeLimit : Int) (timerFirst : Nat → Bool)
    (stdin : List Char) (problems : List Problem) : QuizState :=
  let st := problemsLoop tbl timerFirst problems 0 (initialState timeLimit stdin problems)
  { st with out := st.out ++ [Output.scored st.score problems.length] }

/-- The argument of `time.NewTimer` (main.go 109),
`time.Duration(timeLimit) * time.Second`: a count of nanoseconds in a signed
64-bit integer, so the product wraps around. -/
def timerDuration (timeLimit : Int) : Int :=
  (timeLimit * 1000000000 + 2 ^ 63) % 2 ^ 64 - 2 ^ 63

/-- The instant at which the timer made before the loop (main.go 109) delivers
on `timer.C`, in nanoseconds after its creation.  A duration that is not
positive fires at once.  The timer is made once and nothing in the loop resets
it, so this one instant serves every question. -/
def timer (timeLimit : Int) : Nat :=
  (timerDuration timeLimit).toNat

/-- The `select` of iteration `i` (main.go 121-129) on a clock.  `answerAt i`
is the instant, in nanoseconds after the creation of the timer, at which the
read of question `i` offers its answer on `answerChan`.  The case that becomes
ready first is taken: the answer when it is offered before the timer fires,
the timer when it fires before the answer is offered.  When both become ready
at the same instant the runtime picks either; `tie i` is its pick. -/
def timerWins (timeLimit : Int) (answerAt : Nat → Nat) (tie : Nat → Bool) (i : Nat) : Bool :=
  if answerAt i < timer timeLimit then false
  else if timer timeLimit < answerAt i then true
  else tie i

/-- Source `startQuiz` (main.go 99-133) on a clock: every `select` of the
session is decided against the one timer made at line 109. -/
def startQuizTimed (tbl : Char → Char) (timeLimit : Int) (answerAt : Nat → Nat)
    (tie : Nat → Bool) (stdin : List Char) (problems : List Problem) : QuizState :=
  startQuiz tbl timeLimit (timerWins timeLimit answerAt tie) stdin problems

/-! ## Vocabulary of the specification -/

/-- The problem `parseFile` builds from a record of two fields. -/
def problemOfRecord (tbl : Char → Char) (record : List String) : Problem :=
  ⟨record.getD 0 "", normalizeString tbl (record.getD 1 "")⟩

/-- Two runes that are equal, or are the upper-case and the lower-case form of
one ASCII letter (`'A'..'Z'` is 65..90 and the lower-case form is 32 further). -/
def caseVariant (a b : Char) : Bool :=
  a == b ||
    (65 ≤ a.toNat && a.toNat ≤ 90 && b.toNat == a.toNat + 32) ||
    (65 ≤ b.toNat && b.toNat ≤ 90 && a.toNat == b.toNat + 32)

/-- Two rune sequences of the same length that differ only in the case of
ASCII letters. -/
def differOnlyInAsciiCase : List Char → List Char → Bool
  | [], [] => true
  | a :: s, b :: t => caseVariant a b && differOnlyInAsciiCase s t
  | _, _ => false

/-- The successive values of the variable `answer`: the value stored by each
of `n` consecutive calls of `scanNormalized(&answer)`, starting from the given
input and the given old value. -/
def answersObtained (tbl : Char → Char) : Nat → List Char → String → List String
  | 0, _, _ => []
  | n + 1, stdin, answer =>
    let (a, rest) := scanNormalized tbl stdin answer
    a :: answersObtained tbl n rest a

/-- The number of indices `i` at which `answers[i]` equals `problems[i].answer`. -/
def countCorrect : List Problem → List String → Nat
  | p :: problems, a :: answers =>
    (if a = p.answer then 1 else 0) + countCorrect problems answers
  | _, _ => 0

/-- The number of indices `i` at which `answers[i]` differs from
`problems[i].answer`. -/
def countIncorrect : List Problem → List String → Nat
  | p :: problems, a :: answers =>
    (if a = p.answer then 0 else 1) + countIncorrect problems answers
  | _, _ => 0

/-- The prompts of the given problems in sequence order, the first of them
being problem number `i + 1`. -/
def promptsFrom : Nat → List Problem → List Output
  | _, [] => []
  | i, p :: problems => Output.prompt (i + 1) p.question :: promptsFrom (i + 1) problems

/-! ## Properties of `normalizeString` -/

theorem toNat_ofNat_small (n : Nat) (h : n < 0xd800) : (Char.ofNat n).toNat = n := by
  have hv : n.isValidChar := Or.inl h
  simp only [Char.ofNat, dif_pos hv, Char.ofNatAux, Char.toNat]
  rfl

theorem charCodes : 'A'.toNat = 65 ∧ 'Z'.toNat = 90 ∧ 'a'.toNat = 97 := by decide

theorem toLowerRune_ascii_upper (tbl : Char → Char) (c : Char)
    (h : 65 ≤ c.toNat ∧ c.toNat ≤ 90) :
    toLowerRune tbl c = Char.ofNat (c.toNat + 32) := by
  obtain ⟨hA, hZ, ha⟩ := charCodes
  have h1 : c.toNat ≤ 0x7F := by omega
  simp only [toLowerRune, if_pos h1, hA, hZ, ha, if_pos h]

theorem toLowerRune_ascii_other (tbl : Char → Char) (c : Char)
    (h1 : c.toNat ≤ 0x7F) (h : ¬ (65 ≤ c.toNat ∧ c.toNat ≤ 90)) :
    toLowerRune tbl c = c := by
  obtain ⟨hA, hZ, _⟩ := charCodes
  simp only [toLowerRune, if_pos h1, hA, hZ, if_neg h]

theorem toLowerRune_idem (tbl : Char → Char)
    (hidem : ∀ c : Char, 0x7F < c.toNat → toLowerRune tbl (tbl c) = tbl c) (c : Char) :
    toLowerRune tbl (toLowerRune tbl c) = toLowerRune tbl c := by
  by_cases h1 : c.toNat ≤ 0x7F
  · by_cases h : 65 ≤ c.toNat ∧ c.toNat ≤ 90
    · have hn : (toLowerRune tbl c).toNat = c.toNat + 32 := by
        rw [toLowerRune_ascii_upper tbl c h]
        exact toNat_ofNat_small _ (by omega)
      exact toLowerRune_ascii_other tbl _ (by omega) (by omega)
    · rw [toLowerRune_ascii_other tbl c h1 h, toLowerRune_ascii_other tbl c h1 h]
  · have hc : toLowerRune tbl c = tbl c := by simp only [toLowerRune, if_neg h1]
    rw [hc]
    exact hidem c (by omega)

theorem toLowerRune_caseVariant (tbl : Char → Char) (a b : Char)
    (h : caseVariant a b = true) : toLowerRune tbl a = toLowerRune tbl b := by
  simp only [caseVariant, Bool.or_eq_true, Bool.and_eq_true, beq_iff_eq,
    decide_eq_true_eq] at h
  rcases h with (h | ⟨⟨h1, h2⟩, h3⟩) | ⟨⟨h1, h2⟩, h3⟩
  · rw [h]
  · rw [toLowerRune_ascii_upper tbl a ⟨h1, h2⟩,
      toLowerRune_ascii_other tbl b (by omega) (by omega), ← h3, Char.ofNat_toNat]
  · rw [toLowerRune_ascii_upper tbl b ⟨h1, h2⟩,
      toLowerRune_ascii_other tbl a (by omega) (by omega), ← h3, Char.ofNat_toNat]

theorem map_toLowerRune_differOnlyInAsciiCase (tbl : Char → Char) :
    ∀ s t : List Char, differOnlyInAsciiCase s t = true →
      s.map (toLowerRune tbl) = t.map (toLowerRune tbl)
  | [], [], _ => rfl
  | [], _ :: _, h => by simp [differOnlyInAsciiCase] at h
  | _ :: _, [], h => by simp [differOnlyInAsciiCase] at h
  | a :: s, b :: t, h => by
    simp only [differOnlyInAsciiCase, Bool.and_eq_true] at h
    simp only [List.map_cons]
    rw [toLowerRune_caseVariant tbl a b h.1, map_toLowerRune_differOnlyInAsciiCase tbl s t h.2]

theorem isSpace_toLowerRune (tbl : Char → Char)
    (hsp : ∀ c : Char, 0x7F < c.toNat → isSpace c = true → isSpace (tbl c) = true)
    (c : Char) (hc : isSpace c = true) : isSpace (toLowerRune tbl c) = true := by
  by_cases h1 : c.toNat ≤ 0x7F
  · have hnot : ¬ (65 ≤ c.toNat ∧ c.toNat ≤ 90) := by
      intro hu
      simp only [isSpace, Bool.or_eq_true, Bool.and_eq_true, beq_iff_eq,
        decide_eq_true_eq] at hc
      omega
    rw [toLowerRune_ascii_other tbl c h1 hnot]
    exact hc
  · have hc1 : toLowerRune tbl c = tbl c := by simp only [toLowerRune, if_neg h1]
    rw [hc1]
    exact hsp c (by omega) hc

theorem dropWhile_eq_cons_not (p : Char → Bool) :
    ∀ (m : List Char) (a : Char) (rest : List Char),
      List.dropWhile p m = a :: rest → p a = false := by
  intro m
  induction m with
  | nil => intro a rest h; simp at h
  | cons b m ih =>
    intro a rest h
    by_cases hb : p b = true
    · rw [List.dropWhile_cons_of_pos hb] at h
      exact ih a rest h
    · rw [List.dropWhile_cons_of_neg hb] at h
      have hab : b = a := (List.cons.inj h).1
      rw [← hab]
      simpa using hb

theorem dropWhile_prefix_fixed (p : Char → Bool) (m r : List Char)
    (h : r <+: List.dropWhile p m) : List.dropWhile p r = r := by
  cases r with
  | nil => rfl
  | cons a r =>
    obtain ⟨t, ht⟩ := h
    have ha : p a = false := dropWhile_eq_cons_not p m a (r ++ t) (by rw [← ht]; rfl)
    exact List.dropWhile_cons_of_neg (by simp [ha])

theorem trim_fixed (p : Char → Bool) (l : List Char) :
    List.dropWhile p (List.rdropWhile p (List.dropWhile p l)) =
      List.rdropWhile p (List.dropWhile p l) :=
  dropWhile_prefix_fixed p l _ (List.rdropWhile_prefix p _)

theorem rdropWhile_append_space (p : Char → Bool) (l w : List Char)
    (hw : ∀ c ∈ w, p c = true) :
    List.rdropWhile p (l ++ w) = List.rdropWhile p l := by
  simp only [List.rdropWhile, List.reverse_append]
  rw [List.dropWhile_append_of_pos]
  intro a ha
  exact hw a (List.mem_reverse.mp ha)

theorem trim_append_right (p : Char → Bool) (l w : List Char) (hw : ∀ c ∈ w, p c = true) :
    List.rdropWhile p (List.dropWhile p (l ++ w)) =
      List.rdropWhile p (List.dropWhile p l) := by
  rw [List.dropWhile_append]
  split
  · rename_i h
    have h0 : List.dropWhile p l = [] := by simpa using h
    have hw0 : List.dropWhile p w = [] := List.dropWhile_eq_nil_iff.mpr hw
    rw [h0, hw0]
  · exact rdropWhile_append_space p _ w hw

theorem TrimSpace_idem (s : String) : TrimSpace (TrimSpace s) = TrimSpace s := by
  simp only [TrimSpace]
  rw [trim_fixed, List.rdropWhile_idempotent]

theorem ToLower_TrimSpace (tbl : Char → Char)
    (hidem : ∀ c : Char, 0x7F < c.toNat → toLowerRune tbl (tbl c) = tbl c) (s : String) :
    ToLower tbl (TrimSpace (ToLower tbl s)) = TrimSpace (ToLower tbl s) := by
  have hpre : (TrimSpace (ToLower tbl s)).data <:+: (s.data.map (toLowerRune tbl)) := by
    simp only [TrimSpace, ToLower]
    exact (List.rdropWhile_prefix _ _).isInfix.trans (List.dropWhile_suffix _).isInfix
  have hfix : ∀ c ∈ (TrimSpace (ToLower tbl s)).data, toLowerRune tbl c = c := by
    intro c hc
    obtain ⟨d, _, hd⟩ := List.mem_map.mp (hpre.subset hc)
    rw [← hd]
    exact toLowerRune_idem tbl hidem d
  have hmap : (TrimSpace (ToLower tbl s)).data.map (toLowerRune tbl) =
      (TrimSpace (ToLower tbl s)).data := by
    conv_rhs => rw [← List.map_id (TrimSpace (ToLower tbl s)).data]
    exact List.map_congr_left hfix
  show (⟨(TrimSpace (ToLower tbl s)).data.map (toLowerRune tbl)⟩ : String) = _
  rw [hmap]

theorem normalizeString_append_space (tbl : Char → Char)
    (hsp : ∀ c : Char, 0x7F < c.toNat → isSpace c = true → isSpace (tbl c) = true)
    (s w1 w2 : String) (h1 : ∀ c ∈ w1.data, isSpace c = true)
    (h2 : ∀ c ∈ w2.data, isSpace c = true) :
    normalizeString tbl (w1 ++ s ++ w2) = normalizeString tbl s := by
  have hm1 : ∀ c ∈ w1.data.map (toLowerRune tbl), isSpace c = true := by
    intro c hc
    obtain ⟨d, hd, hdc⟩ := List.mem_map.mp hc
    rw [← hdc]
    exact isSpace_toLowerRune tbl hsp d (h1 d hd)
  have hm2 : ∀ c ∈ w2.data.map (toLowerRune tbl), isSpace c = true := by
    intro c hc
    obtain ⟨d, hd, hdc⟩ := List.mem_map.mp hc
    rw [← hdc]
    exact isSpace_toLowerRune tbl hsp d (h2 d hd)
  simp only [normalizeString, TrimSpace, ToLower, String.data_append, List.map_append,
    List.append_assoc]
  rw [List.dropWhile_append_of_pos hm1, trim_append_right isSpace _ _ hm2]

/-- C6: answer matching is insensitive to surrounding white space and to the
case of ASCII letters.  For a case table that maps white space to white space,
`normalizeString (w1 ++ s ++ w2) = normalizeString s` whenever `w1` and `w2`
consist of white space only; two strings that differ only in the case of ASCII
letters have the same normal form; and `"Paris"`, `"paris"` and `"  paris  "`
all normalise to `"paris"`, the answer `parseFile` stores for the reference
answer `"Paris"`. -/
theorem normalizeString_insensitive (tbl : Char → Char)
    (hsp : ∀ c : Char, 0x7F < c.toNat → isSpace c = true → isSpace (tbl c) = true) :
    (∀ s w1 w2 : String, (∀ c ∈ w1.data, isSpace c = true) →
        (∀ c ∈ w2.data, isSpace c = true) →
        normalizeString tbl (w1 ++ s ++ w2) = normalizeString tbl s) ∧
    (∀ s t : String, differOnlyInAsciiCase s.data t.data = true →
        normalizeString tbl s = normalizeString tbl t) ∧
    normalizeString tbl "Paris" = "paris" ∧
    normalizeString tbl "paris" = "paris" ∧
    normalizeString tbl "  paris  " = "paris" ∧
    parseFile tbl (some [["capital of France", "Paris"]]) =
      ([⟨"capital of France", "paris"⟩], none) := by
  refine ⟨fun s w1 w2 h1 h2 => normalizeString_append_space tbl hsp s w1 w2 h1 h2,
    ?_, rfl, rfl, rfl, rfl⟩
  intro s t h
  simp only [normalizeString, ToLower]
  rw [map_toLowerRune_differOnlyInAsciiCase tbl s.data t.data h]

/-- Witness of C6 with the identity as case table: white space around
`"Paris"` is ignored and `"PARIS"` is matched like `"paris"`. -/
theorem normalizeString_insensitive_witness :
    (∀ c : Char, 0x7F < c.toNat → isSpace c = true → isSpace (id c) = true) ∧
    normalizeString id ("\t " ++ "Paris" ++ " \n") = normalizeString id "Paris" ∧
    normalizeString id "PARIS" = normalizeString id "paris" :=
  ⟨fun _ _ h => h,
    (normalizeString_insensitive id (fun _ _ h => h)).1 "Paris" "\t " " \n"
      (by decide) (by decide),
    (normalizeString_insensitive id (fun _ _ h => h)).2.1 "PARIS" "paris" (by decide)⟩

/-- C7: `normalizeString` is idempotent, for every case table whose
lower-case images are themselves lower case. -/
theorem normalizeString_idempotent (tbl : Char → Char)
    (hidem : ∀ c : Char, 0x7F < c.toNat → toLowerRune tbl (tbl c) = tbl c) (s : String) :
    normalizeString tbl (normalizeString tbl s) = normalizeString tbl s := by
  simp only [normalizeString]
  rw [ToLower_TrimSpace tbl hidem, TrimSpace_idem]

/-- Witness of C7 with the identity as case table, at `"  New York "`. -/
theorem normalizeString_idempotent_witness :
    (∀ c : Char, 0x7F < c.toNat → toLowerRune id (id c) = id c) ∧
    normalizeString id (normalizeString id "  New York ") =
      normalizeString id "  New York " :=
  ⟨fun c h => by simp only [toLowerRune, id, if_neg (Nat.not_le.mpr h)],
    normalizeString_idempotent id
      (fun c h => by simp only [toLowerRune, id, if_neg (Nat.not_le.mpr h)]) "  New York "⟩

/-! ## Properties of `parseFile` -/

theorem parseLoop_ok (tbl : Char → Char) :
    ∀ (records : List (List String)) (n : Nat) (acc : List Problem),
      (n = 0 ∨ n = 2) → (∀ r ∈ records, r.length = 2) →
      parseLoop tbl records n acc = (acc ++ records.map (problemOfRecord tbl), none) := by
  intro records
  induction records with
  | nil => intro n acc _ _; simp [parseLoop]
  | cons r rest ih =>
    intro n acc hn hall
    have hr : r.length = 2 := hall r (List.mem_cons_self _ _)
    obtain ⟨q, a, rfl⟩ : ∃ q a, r = [q, a] := by
      match r, hr with
      | [q, a], _ => exact ⟨q, a, rfl⟩
    have hrest : ∀ r ∈ rest, r.length = 2 := fun r h => hall r (List.mem_cons_of_mem _ h)
    have hchk : checkFieldCount n [q, a] = (false, 2) := by
      rcases hn with h | h <;> subst h <;> rfl
    simp only [parseLoop, hchk]
    rw [ih 2 _ (Or.inr rfl) hrest]
    simp [problemOfRecord]

theorem parseLoop_fail (tbl : Char → Char) :
    ∀ (records : List (List String)) (n : Nat) (acc : List Problem),
      (n = 0 ∨ n = 2) → (∃ r ∈ records, r.length ≠ 2) →
      (parseLoop tbl records n acc).1 = [] ∧ (parseLoop tbl records n acc).2 ≠ none := by
  intro records
  induction records with
  | nil => intro n acc _ h; obtain ⟨r, hr, _⟩ := h; simp at hr
  | cons r rest ih =>
    intro n acc hn hex
    by_cases hr : r.length = 2
    · obtain ⟨q, a, rfl⟩ : ∃ q a, r = [q, a] := by
        match r, hr with
        | [q, a], _ => exact ⟨q, a, rfl⟩
      have hchk : checkFieldCount n [q, a] = (false, 2) := by
        rcases hn with h | h <;> subst h <;> rfl
      have hex2 : ∃ r ∈ rest, r.length ≠ 2 := by
        obtain ⟨x, hx, hxl⟩ := hex
        rcases List.mem_cons.mp hx with h | h
        · subst h; exact absurd rfl hxl
        · exact ⟨x, h, hxl⟩
      simp only [parseLoop, hchk]
      exact ih 2 _ (Or.inr rfl) hex2
    · rcases hn with h | h
      · subst h
        have hchk : checkFieldCount 0 r = (false, r.length) := rfl
        simp only [parseLoop, hchk]
        split
        · rename_i q a
          exact absurd rfl hr
        · exact ⟨rfl, by simp⟩
      · subst h
        have hchk : checkFieldCount 2 r = (true, 2) := by
          simp [checkFieldCount, hr]
        simp [parseLoop, hchk]

/-- C8: on every sequence of records, `parseFile` returns an error exactly when
some record does not have two fields, and then it returns no problems at all;
otherwise it returns one problem per record, in file order, whose question is
the first field unchanged and whose answer is `normalizeString` of the second
field. -/
theorem parseFile_spec (tbl : Char → Char) (records : List (List String)) :
    ((parseFile tbl (some records)).2 ≠ none ↔ ∃ r ∈ records, r.length ≠ 2) ∧
    ((parseFile tbl (some records)).2 ≠ none → (parseFile tbl (some records)).1 = []) ∧
    ((parseFile tbl (some records)).2 = none →
      (parseFile tbl (some records)).1 =
          records.map (fun r => ⟨r.getD 0 "", normalizeString tbl (r.getD 1 "")⟩) ∧
        ((parseFile tbl (some records)).1).length = records.length) := by
  by_cases hex : ∃ r ∈ records, r.length ≠ 2
  · have h := parseLoop_fail tbl records 0 [] (Or.inl rfl) hex
    refine ⟨⟨fun _ => hex, fun _ => h.2⟩, fun _ => h.1, fun hn => absurd hn h.2⟩
  · have hall : ∀ r ∈ records, r.length = 2 := by
      intro r hr
      by_contra hne
      exact hex ⟨r, hr, hne⟩
    have h := parseLoop_ok tbl records 0 [] (Or.inl rfl) hall
    have hp : parseFile tbl (some records) = (records.map (problemOfRecord tbl), none) := by
      simpa [parseFile] using h
    rw [hp]
    refine ⟨⟨fun hn => absurd rfl hn, fun h2 => absurd h2 hex⟩, fun hn => absurd rfl hn,
      fun _ => ⟨rfl, by simp⟩⟩

/-- Witness of C8: a record of three fields and a record of one field make the
load fail with no problems, also after a well-formed record, and a two-row
file loads as two problems in file order. -/
theorem parseFile_spec_witness :
    (parseFile id (some [["2+2", "4", "x"]])).2 ≠ none ∧
    (parseFile id (some [["2+2", "4"], ["capital of France"]])).1 = [] ∧
    (parseFile id (some [["2+2", "4"], ["capital of France", "Paris"]])).1 =
      [⟨"2+2", "4"⟩, ⟨"capital of France", "paris"⟩] :=
  ⟨(parseFile_spec id [["2+2", "4", "x"]]).1.mpr ⟨["2+2", "4", "x"], by decide, by decide⟩,
    (parseFile_spec id [["2+2", "4"], ["capital of France"]]).2.1 (by decide),
    ((parseFile_spec id [["2+2", "4"], ["capital of France", "Paris"]]).2.2 (by decide)).1.trans
      (by decide)⟩

/-! ## Properties of `shuffleProblems` -/

theorem set_set_perm_of_getElem (l : List Problem) (i j : Nat) (a b : Problem)
    (hi : l[i]? = some a) (hj : l[j]? = some b) : ((l.set i b).set j a).Perm l := by
  obtain ⟨hil, hia⟩ := List.getElem?_eq_some_iff.mp hi
  obtain ⟨hjl, hjb⟩ := List.getElem?_eq_some_iff.mp hj
  rw [List.perm_iff_count]
  intro x
  have hmem : a ∈ l := by
    rw [← hia]
    exact List.getElem_mem hil
  have hpos : (if (a == x) = true then 1 else 0) ≤ List.count x l := by
    split
    · rename_i hax
      have hax2 : a = x := by simpa using hax
      subst hax2
      exact List.count_pos_iff.mpr hmem
    · exact Nat.zero_le _
  by_cases hij : i = j
  · subst hij
    have hab : a = b := by rw [← hia, ← hjb]
    subst hab
    rw [List.set_set, List.count_set a x l i hil, hia]
    omega
  · have hjl2 : j < (l.set i b).length := by simpa using hjl
    have hget : (l.set i b)[j] = b := by
      rw [List.getElem_set_ne hij]
      exact hjb
    rw [List.count_set a x _ j hjl2, List.count_set b x l i hil, hget, hia]
    omega

theorem swap_perm (l : List Problem) (i j : Nat) : (swap l i j).Perm l := by
  unfold swap
  split
  · rename_i a b hi hj
    exact set_set_perm_of_getElem l i j a b hi hj
  · exact List.Perm.refl l

theorem shuffleLoop_perm (rnd : Nat → Nat) :
    ∀ (i : Nat) (l : List Problem), (shuffleLoop rnd i l).Perm l := by
  intro i
  induction i with
  | zero => intro l; exact List.Perm.refl l
  | succ i ih =>
    intro l
    exact (ih _).trans (swap_perm l _ _)

/-- C9: for every problem list and every sequence of random draws,
`shuffleProblems` returns a permutation of its input: every problem occurs as
often after the shuffle as before, and the length is unchanged.  The empty
list and the lists of one element are returned unchanged. -/
theorem shuffleProblems_perm (rnd : Nat → Nat) (problems : List Problem) :
    (shuffleProblems rnd problems).Perm problems ∧
    (∀ p : Problem, (shuffleProblems rnd problems).count p = problems.count p) ∧
    (shuffleProblems rnd problems).length = problems.length ∧
    shuffleProblems rnd [] = [] ∧
    (∀ p : Problem, shuffleProblems rnd [p] = [p]) := by
  have h : (shuffleProblems rnd problems).Perm problems :=
    shuffleLoop_perm rnd _ problems
  exact ⟨h, fun p => h.count_eq p, h.length_eq, rfl, fun _ => rfl⟩

/-! ## Properties of `startQuiz` -/

theorem answersObtained_succ (tbl : Char → Char) (n : Nat) (stdin : List Char)
    (answer : String) :
    answersObtained tbl (n + 1) stdin answer =
      (scanNormalized tbl stdin answer).1 ::
        answersObtained tbl n (scanNormalized tbl stdin answer).2
          (scanNormalized tbl stdin answer).1 := rfl

theorem answersObtained_length (tbl : Char → Char) :
    ∀ (n : Nat) (stdin : List Char) (answer : String),
      (answersObtained tbl n stdin answer).length = n := by
  intro n
  induction n with
  | zero => intro stdin answer; rfl
  | succ n ih =>
    intro stdin answer
    rw [answersObtained_succ, List.length_cons, ih]

theorem countCorrect_add_countIncorrect :
    ∀ (problems : List Problem) (answers : List String),
      answers.length = problems.length →
      countCorrect problems answers + countIncorrect problems answers = problems.length := by
  intro problems
  induction problems with
  | nil => intro answers _; cases answers <;> rfl
  | cons p problems ih =>
    intro answers h
    cases answers with
    | nil => simp at h
    | cons a answers =>
      have h2 : answers.length = problems.length := by simpa using h
      have := ih answers h2
      simp only [countCorrect, countIncorrect, List.length_cons]
      split <;> omega

theorem countCorrect_le :
    ∀ (problems : List Problem) (answers : List String),
      countCorrect problems answers ≤ answers.length := by
  intro problems
  induction problems with
  | nil => intro answers; cases answers <;> simp [countCorrect]
  | cons p problems ih =>
    intro answers
    cases answers with
    | nil => simp [countCorrect]
    | cons a answers =>
      have := ih answers
      simp only [countCorrect, List.length_cons]
      split <;> omega

theorem outOfTime_not_mem_promptsFrom :
    ∀ (problems : List Problem) (i : Nat), Output.outOfTime ∉ promptsFrom i problems := by
  intro problems
  induction problems with
  | nil => intro i; simp [promptsFrom]
  | cons p problems ih =>
    intro i
    simp only [promptsFrom, List.mem_cons, not_or]
    exact ⟨by simp, ih (i + 1)⟩

/-- One pass through the loop body when the answer wins the race. -/
theorem problemsLoop_cons_answer (tbl : Char → Char) (timerFirst : Nat → Bool)
    (p : Problem) (rest : List Problem) (i : Nat) (st : QuizState)
    (h : timerFirst i = false) :
    problemsLoop tbl timerFirst (p :: rest) i st =
      problemsLoop tbl timerFirst rest (i + 1)
        { stdin := (scanNormalized tbl st.stdin st.answer).2,
          answer := (scanNormalized tbl st.stdin st.answer).1,
          score := st.score +
            (if (scanNormalized tbl st.stdin st.answer).1 = p.answer then 1 else 0),
          out := st.out ++ [Output.prompt (i + 1) p.question],
          timedOut := st.timedOut } := by
  simp only [problemsLoop, h, Bool.false_eq_true, if_false]
  congr 1
  split <;> rfl

/-- One pass through the loop body when the timer wins the race. -/
theorem problemsLoop_cons_timer (tbl : Char → Char) (timerFirst : Nat → Bool)
    (p : Problem) (rest : List Problem) (i : Nat) (st : QuizState)
    (h : timerFirst i = true) :
    problemsLoop tbl timerFirst (p :: rest) i st =
      { st with out := st.out ++ [Output.prompt (i + 1) p.question] ++ [Output.outOfTime],
                timedOut := true } := by
  simp only [problemsLoop, h, if_true]

theorem problemsLoop_all_answered (tbl : Char → Char) (timerFirst : Nat → Bool) :
    ∀ (problems : List Problem) (i : Nat) (st : QuizState),
      (∀ j, j < problems.length → timerFirst (i + j) = false) →
      (problemsLoop tbl timerFirst problems i st).score =
          st.score +
            countCorrect problems (answersObtained tbl problems.length st.stdin st.answer) ∧
        (problemsLoop tbl timerFirst problems i st).out = st.out ++ promptsFrom i problems ∧
        (problemsLoop tbl timerFirst problems i st).timedOut = st.timedOut := by
  intro problems
  induction problems with
  | nil => intro i st _; simp [problemsLoop, countCorrect, promptsFrom, answersObtained]
  | cons p rest ih =>
    intro i st h
    have h0 : timerFirst i = false := by simpa using h 0 (by simp)
    have hrest : ∀ j, j < rest.length → timerFirst (i + 1 + j) = false := by
      intro j hj
      have := h (j + 1) (by simpa using hj)
      rwa [show i + 1 + j = i + (j + 1) by omega]
    rw [problemsLoop_cons_answer tbl timerFirst p rest i st h0]
    obtain ⟨h1, h2, h3⟩ := ih (i + 1) _ hrest
    rw [h1, h2, h3, List.length_cons, answersObtained_succ]
    dsimp only [countCorrect, promptsFrom]
    refine ⟨by omega, by simp, rfl⟩

theorem problemsLoop_deadline (tbl : Char → Char) (timerFirst : Nat → Bool) :
    ∀ (k : Nat) (problems : List Problem) (i : Nat) (st : QuizState),
      k < problems.length → timerFirst (i + k) = true →
      (∀ j, j < k → timerFirst (i + j) = false) →
      (problemsLoop tbl timerFirst problems i st).score =
          st.score +
            countCorrect (problems.take k) (answersObtained tbl k st.stdin st.answer) ∧
        (problemsLoop tbl timerFirst problems i st).out =
          st.out ++ promptsFrom i (problems.take (k + 1)) ++ [Output.outOfTime] ∧
        (problemsLoop tbl timerFirst problems i st).timedOut = true := by
  intro k
  induction k with
  | zero =>
    intro problems i st hk hfire _
    cases problems with
    | nil => simp at hk
    | cons p rest =>
      rw [problemsLoop_cons_timer tbl timerFirst p rest i st (by simpa using hfire)]
      simp [countCorrect, promptsFrom, answersObtained]
  | succ k ih =>
    intro problems i st hk hfire hfirst
    cases problems with
    | nil => simp at hk
    | cons p rest =>
      have h0 : timerFirst i = false := by simpa using hfirst 0 (by omega)
      have hk2 : k < rest.length := by simpa using hk
      have hfire2 : timerFirst (i + 1 + k) = true := by
        rwa [show i + 1 + k = i + (k + 1) by omega]
      have hfirst2 : ∀ j, j < k → timerFirst (i + 1 + j) = false := by
        intro j hj
        have := hfirst (j + 1) (by omega)
        rwa [show i + 1 + j = i + (j + 1) by omega]
      rw [problemsLoop_cons_answer tbl timerFirst p rest i st h0]
      obtain ⟨h1, h2, h3⟩ := ih rest (i + 1) _ hk2 hfire2 hfirst2
      rw [h1, h2, h3, List.take_succ_cons, List.take_succ_cons, answersObtained_succ]
      dsimp only [countCorrect, promptsFrom]
      refine ⟨by omega, by simp, rfl⟩

theorem problemsLoop_score_le (tbl : Char → Char) (timerFirst : Nat → Bool) :
    ∀ (problems : List Problem) (i : Nat) (st : QuizState),
      st.score ≤ (problemsLoop tbl timerFirst problems i st).score ∧
        (problemsLoop tbl timerFirst problems i st).score ≤ st.score + problems.length := by
  intro problems
  induction problems with
  | nil => intro i st; simp [problemsLoop]
  | cons p rest ih =>
    intro i st
    cases h : timerFirst i with
    | true =>
      rw [problemsLoop_cons_timer tbl timerFirst p rest i st h]
      simp
    | false =>
      rw [problemsLoop_cons_answer tbl timerFirst p rest i st h]
      obtain ⟨h1, h2⟩ := ih (i + 1)
        { stdin := (scanNormalized tbl st.stdin st.answer).2,
          answer := (scanNormalized tbl st.stdin st.answer).1,
          score := st.score +
            (if (scanNormalized tbl st.stdin st.answer).1 = p.answer then 1 else 0),
          out := st.out ++ [Output.prompt (i + 1) p.question],
          timedOut := st.timedOut }
      have hle : (if (scanNormalized tbl st.stdin st.answer).1 = p.answer then 1 else 0) ≤ 1 := by
        split <;> omega
      simp only [List.length_cons] at h1 h2 ⊢
      constructor <;> omega

theorem problemsLoop_append (tbl : Char → Char) (timerFirst : Nat → Bool) :
    ∀ (xs ys : List Problem) (i : Nat) (st : QuizState), st.timedOut = false →
      problemsLoop tbl timerFirst (xs ++ ys) i st =
        if (problemsLoop tbl timerFirst xs i st).timedOut = true then
          problemsLoop tbl timerFirst xs i st
        else problemsLoop tbl timerFirst ys (i + xs.length) (problemsLoop tbl timerFirst xs i st) := by
  intro xs
  induction xs with
  | nil =>
    intro ys i st hst
    simp [problemsLoop, hst]
  | cons p rest ih =>
    intro ys i st hst
    cases h : timerFirst i with
    | true =>
      rw [List.cons_append, problemsLoop_cons_timer tbl timerFirst p (rest ++ ys) i st h,
        problemsLoop_cons_timer tbl timerFirst p rest i st h]
      simp
    | false =>
      rw [List.cons_append, problemsLoop_cons_answer tbl timerFirst p (rest ++ ys) i st h,
        problemsLoop_cons_answer tbl timerFirst p rest i st h, ih ys (i + 1)]
      · rw [List.length_cons, show i + 1 + rest.length = i + (rest.length + 1) by omega]
      · exact hst

/-- C1: when in every iteration the answer arrives before the timer fires, all
problems are prompted in sequence order, the loop is not left early, the
reported total is the number of problems, and the reported score is the number
of indices at which the answer obtained equals the stored answer, so that score
and number of incorrect answers add up to the total.  On the empty list the
result is score 0 out of 0 with no prompt. -/
theorem startQuiz_all_answered (tbl : Char → Char) (timeLimit : Int)
    (timerFirst : Nat → Bool) (stdin : List Char) (problems : List Problem)
    (h : ∀ i, i < problems.length → timerFirst i = false) :
    (startQuiz tbl timeLimit timerFirst stdin problems).out =
        [Output.welcome, Output.questions problems.length, Output.limit timeLimit] ++
          promptsFrom 0 problems ++
          [Output.scored (countCorrect problems
            (answersObtained tbl problems.length stdin "")) problems.length] ∧
      (startQuiz tbl timeLimit timerFirst stdin problems).timedOut = false ∧
      Output.outOfTime ∉ (startQuiz tbl timeLimit timerFirst stdin problems).out ∧
      (startQuiz tbl timeLimit timerFirst stdin problems).score =
        countCorrect problems (answersObtained tbl problems.length stdin "") ∧
      (startQuiz tbl timeLimit timerFirst stdin problems).score +
          countIncorrect problems (answersObtained tbl problems.length stdin "") =
        problems.length ∧
      startQuiz tbl timeLimit timerFirst stdin [] =
        { stdin := stdin, answer := "", score := 0,
          out := [Output.welcome, Output.questions 0, Output.limit timeLimit,
            Output.scored 0 0],
          timedOut := false } := by
  obtain ⟨h1, h2, h3⟩ := problemsLoop_all_answered tbl timerFirst problems 0
    (initialState timeLimit stdin problems) (by simpa using h)
  have hs : (startQuiz tbl timeLimit timerFirst stdin problems).score =
      countCorrect problems (answersObtained tbl problems.length stdin "") := by
    show (problemsLoop tbl timerFirst problems 0 (initialState timeLimit stdin problems)).score = _
    rw [h1]
    simp [initialState]
  have ho : (startQuiz tbl timeLimit timerFirst stdin problems).out =
      [Output.welcome, Output.questions problems.length, Output.limit timeLimit] ++
        promptsFrom 0 problems ++
        [Output.scored (countCorrect problems
          (answersObtained tbl problems.length stdin "")) problems.length] := by
    show (problemsLoop tbl timerFirst problems 0 (initialState timeLimit stdin problems)).out ++
      [Output.scored
        (problemsLoop tbl timerFirst problems 0 (initialState timeLimit stdin problems)).score
        problems.length] = _
    rw [h2, h1]
    simp [initialState]
  refine ⟨ho, h3, ?_, hs, ?_, rfl⟩
  · rw [ho]
    have := outOfTime_not_mem_promptsFrom problems 0
    simp [this]
  · rw [hs]
    exact countCorrect_add_countIncorrect problems _ (answersObtained_length tbl _ _ _)

/-- Witness of C1: the problems loaded from `2+2,4` and `capital of France,Paris`,
answered `4` and `paris` before the timer fires, give score 2 out of 2. -/
theorem startQuiz_all_answered_witness :
    (∀ i, i < (parseFile id (some [["2+2", "4"], ["capital of France", "Paris"]])).1.length →
        (fun _ : Nat => false) i = false) ∧
      (startQuiz id 30 (fun _ => false) "4\nparis\n".data
        (parseFile id (some [["2+2", "4"], ["capital of France", "Paris"]])).1).out =
        [Output.welcome, Output.questions 2, Output.limit 30, Output.prompt 1 "2+2",
          Output.prompt 2 "capital of France", Output.scored 2 2] :=
  ⟨fun _ _ => rfl,
    (startQuiz_all_answered id 30 (fun _ => false) "4\nparis\n".data
      (parseFile id (some [["2+2", "4"], ["capital of France", "Paris"]])).1
      (fun _ _ => rfl)).1.trans (by decide)⟩

theorem timer_of_seconds (timeLimit : Int) (h0 : 0 ≤ timeLimit)
    (h1 : timeLimit * 1000000000 < 2 ^ 63) :
    timer timeLimit = timeLimit.toNat * 1000000000 := by
  unfold timer timerDuration
  rw [Int.emod_eq_of_lt (by omega) (by omega)]
  omega

theorem timerWins_of_fired (timeLimit : Int) (answerAt : Nat → Nat) (tie : Nat → Bool)
    (i : Nat)
    (h : timer timeLimit < answerAt i ∨ (answerAt i = timer timeLimit ∧ tie i = true)) :
    timerWins timeLimit answerAt tie i = true := by
  unfold timerWins
  rcases h with h | ⟨h1, h2⟩
  · rw [if_neg (by omega), if_pos h]
  · rw [if_neg (by omega), if_neg (by omega), h2]

theorem timerWins_of_answered (timeLimit : Int) (answerAt : Nat → Nat) (tie : Nat → Bool)
    (i : Nat)
    (h : answerAt i < timer timeLimit ∨ (answerAt i = timer timeLimit ∧ tie i = false)) :
    timerWins timeLimit answerAt tie i = false := by
  unfold timerWins
  rcases h with h | ⟨h1, h2⟩
  · rw [if_pos h]
  · rw [if_neg (by omega), if_neg (by omega), h2]

/-- C2: the session has one deadline, the instant `timer timeLimit` fixed when
the timer is made before the loop (`timeLimit` seconds after that, whenever
the duration fits in 64 bits), and every question is decided against that same
instant, whatever time the earlier questions took.  The loop halts at the
first question `k` whose answer is offered after the deadline (or at the same
instant, the runtime picking the timer), all earlier answers having been
offered before it: the problems up to and including `k` have been prompted and
no later one, the score is the number of correct answers among the questions
before `k` (so at most `k`, and 0 when `k` is the first question), the session
is reported as out of time, and the reported total is still the number of all
problems. -/
theorem startQuiz_deadline (tbl : Char → Char) (timeLimit : Int)
    (answerAt : Nat → Nat) (tie : Nat → Bool) (stdin : List Char)
    (problems : List Problem) (k : Nat)
    (hk : k < problems.length)
    (hfire : timer timeLimit < answerAt k ∨ (answerAt k = timer timeLimit ∧ tie k = true))
    (hfirst : ∀ i, i < k →
      answerAt i < timer timeLimit ∨ (answerAt i = timer timeLimit ∧ tie i = false)) :
    (startQuizTimed tbl timeLimit answerAt tie stdin problems).timedOut = true ∧
      (startQuizTimed tbl timeLimit answerAt tie stdin problems).score =
        countCorrect (problems.take k) (answersObtained tbl k stdin "") ∧
      (startQuizTimed tbl timeLimit answerAt tie stdin problems).score ≤ k ∧
      (startQuizTimed tbl timeLimit answerAt tie stdin problems).out =
        [Output.welcome, Output.questions problems.length, Output.limit timeLimit] ++
          promptsFrom 0 (problems.take (k + 1)) ++
          [Output.outOfTime,
            Output.scored (countCorrect (problems.take k) (answersObtained tbl k stdin ""))
              problems.length] ∧
      (0 ≤ timeLimit → timeLimit * 1000000000 < 2 ^ 63 →
        timer timeLimit = timeLimit.toNat * 1000000000) := by
  have hfire2 : timerWins timeLimit answerAt tie (0 + k) = true := by
    rw [Nat.zero_add]
    exact timerWins_of_fired timeLimit answerAt tie k hfire
  have hfirst2 : ∀ j, j < k → timerWins timeLimit answerAt tie (0 + j) = false := by
    intro j hj
    rw [Nat.zero_add]
    exact timerWins_of_answered timeLimit answerAt tie j (hfirst j hj)
  obtain ⟨h1, h2, h3⟩ := problemsLoop_deadline tbl (timerWins timeLimit answerAt tie) k
    problems 0 (initialState timeLimit stdin problems) hk hfire2 hfirst2
  have hs : (startQuizTimed tbl timeLimit answerAt tie stdin problems).score =
      countCorrect (problems.take k) (answersObtained tbl k stdin "") := by
    show (problemsLoop tbl (timerWins timeLimit answerAt tie) problems 0
      (initialState timeLimit stdin problems)).score = _
    rw [h1]
    simp [initialState]
  refine ⟨h3, hs, ?_, ?_, timer_of_seconds timeLimit⟩
  · rw [hs]
    have := countCorrect_le (problems.take k) (answersObtained tbl k stdin "")
    rwa [answersObtained_length] at this
  · show (problemsLoop tbl (timerWins timeLimit answerAt tie) problems 0
        (initialState timeLimit stdin problems)).out ++
      [Output.scored
        (problemsLoop tbl (timerWins timeLimit answerAt tie) problems 0
          (initialState timeLimit stdin problems)).score
        problems.length] = _
    rw [h2, h1]
    simp [initialState]

/-- Witness of C2 on the two problems of the reference data source with a
limit of 30 seconds.  When the first answer comes after 31 seconds the result
is score 0 out of 2 after one prompt.  When the answers `4` and `paris` come
after 20 and after 40 seconds, the second question is cut off although it took
only 20 seconds: the deadline was not reset, and the result is score 1 out of
2. -/
theorem startQuiz_deadline_witness :
    ((0 < (parseFile id (some [["2+2", "4"], ["capital of France", "Paris"]])).1.length ∧
        timer 30 < (fun _ : Nat => 31000000000) 0) ∧
      (startQuizTimed id 30 (fun _ => 31000000000) (fun _ => false) "4\nparis\n".data
        (parseFile id (some [["2+2", "4"], ["capital of France", "Paris"]])).1).out =
        [Output.welcome, Output.questions 2, Output.limit 30, Output.prompt 1 "2+2",
          Output.outOfTime, Output.scored 0 2]) ∧
    ((1 < (parseFile id (some [["2+2", "4"], ["capital of France", "Paris"]])).1.length ∧
        timer 30 < (fun i : Nat => (i + 1) * 20000000000) 1 ∧
        (fun i : Nat => (i + 1) * 20000000000) 0 < timer 30) ∧
      (startQuizTimed id 30 (fun i => (i + 1) * 20000000000) (fun _ => false)
        "4\nparis\n".data
        (parseFile id (some [["2+2", "4"], ["capital of France", "Paris"]])).1).out =
        [Output.welcome, Output.questions 2, Output.limit 30, Output.prompt 1 "2+2",
          Output.prompt 2 "capital of France", Output.outOfTime, Output.scored 1 2]) :=
  ⟨⟨⟨by decide, by decide⟩,
      (startQuiz_deadline id 30 (fun _ => 31000000000) (fun _ => false) "4\nparis\n".data
        (parseFile id (some [["2+2", "4"], ["capital of France", "Paris"]])).1 0
        (by decide) (Or.inl (by decide))
        (fun _ hi => absurd hi (Nat.not_lt_zero _))).2.2.2.1.trans (by decide)⟩,
    ⟨⟨by decide, by decide, by decide⟩,
      (startQuiz_deadline id 30 (fun i => (i + 1) * 20000000000) (fun _ => false)
        "4\nparis\n".data
        (parseFile id (some [["2+2", "4"], ["capital of France", "Paris"]])).1 1
        (by decide) (Or.inl (by decide))
        (fun i hi => Or.inl (by
          have hi0 : i = 0 := by omega
          subst hi0
          decide))).2.2.2.1.trans (by decide)⟩⟩

/-- C10: the score never exceeds the number of questions presented.  The state
after `n` iterations of the loop is the run over the first `n` problems (the
whole run continues from it, or is it when the loop was left); its score is at
most `n` and at most the number of problems, and the score of the final report
is at most the total.  The score is a natural number that is only incremented,
so it is never negative. -/
theorem startQuiz_score_bounded (tbl : Char → Char) (timeLimit : Int)
    (timerFirst : Nat → Bool) (stdin : List Char) (problems : List Problem) :
    (∀ n : Nat,
      (problemsLoop tbl timerFirst (problems.take n) 0
          (initialState timeLimit stdin problems)).score ≤ n ∧
        (problemsLoop tbl timerFirst (problems.take n) 0
          (initialState timeLimit stdin problems)).score ≤ problems.length ∧
        problemsLoop tbl timerFirst problems 0 (initialState timeLimit stdin problems) =
          if (problemsLoop tbl timerFirst (problems.take n) 0
              (initialState timeLimit stdin problems)).timedOut = true then
            problemsLoop tbl timerFirst (problems.take n) 0
              (initialState timeLimit stdin problems)
          else
            problemsLoop tbl timerFirst (problems.drop n) n
              (problemsLoop tbl timerFirst (problems.take n) 0
                (initialState timeLimit stdin problems))) ∧
      (startQuiz tbl timeLimit timerFirst stdin problems).score ≤ problems.length ∧
      (startQuiz tbl timeLimit timerFirst stdin problems).out.getLast? =
        some (Output.scored (startQuiz tbl timeLimit timerFirst stdin problems).score
          problems.length) := by
  refine ⟨fun n => ?_, ?_, ?_⟩
  · have hle := (problemsLoop_score_le tbl timerFirst (problems.take n) 0
      (initialState timeLimit stdin problems)).2
    have hlen : (problems.take n).length ≤ n ∧ (problems.take n).length ≤ problems.length := by
      rw [List.length_take]
      omega
    have h0 : (initialState timeLimit stdin problems).score = 0 := rfl
    refine ⟨by omega, by omega, ?_⟩
    by_cases hn : n ≤ problems.length
    · have happ := problemsLoop_append tbl timerFirst (problems.take n) (problems.drop n) 0
        (initialState timeLimit stdin problems) rfl
      rw [List.take_append_drop, List.length_take, Nat.min_eq_left hn, Nat.zero_add] at happ
      exact happ
    · have ht : problems.take n = problems := List.take_of_length_le (by omega)
      have hd : problems.drop n = [] := List.drop_of_length_le (by omega)
      rw [ht, hd]
      simp [problemsLoop]
  · have hle := (problemsLoop_score_le tbl timerFirst problems 0
      (initialState timeLimit stdin problems)).2
    have h0 : (initialState timeLimit stdin problems).score = 0 := rfl
    show (problemsLoop tbl timerFirst problems 0 (initialState timeLimit stdin problems)).score ≤ _
    omega
  · simp [startQuiz]

/-- C3 fails on the code: `fmt.Scanln` stores one word, not the line.  On the
line `New York` the operand becomes `New`, the error "expected newline" is
raised after the `Y` has been read, and `ork` with its newline stays on the
input.  The answer compared with the stored `new york` is `new`, so the
question is scored as wrong, and the rest of the line answers the next
question. -/
theorem scanNormalized_reads_one_word (tbl : Char → Char) :
    Scanln "New York\n".data "" =
        (("New", some ScanError.expectedNewline), "ork\n".data) ∧
      scanNormalized tbl "New York\n".data "" = ("new", "ork\n".data) ∧
      normalizeString tbl "New York\n" = "new york" ∧
      (parseFile tbl (some [["Largest US city", "New York"]])).1 =
        [⟨"Largest US city", "new york"⟩] ∧
      (startQuiz tbl 30 (fun _ => false) "New York\n".data
        [⟨"Largest US city", "new york"⟩]).score = 0 ∧
      (startQuiz tbl 30 (fun _ => false) "New York\n".data
        [⟨"Largest US city", "new york"⟩, ⟨"Scandinavian whale", "ork"⟩]).score = 1 :=
  ⟨rfl, rfl, rfl, rfl, rfl, rfl⟩

/-- C4 fails on the code: on an empty line `fmt.Scanln` raises "unexpected
newline" without storing anything, so `scanNormalized` leaves the previous
answer in the shared variable `answer`.  After `4` on the first question, an
empty line on the second question is compared as `4` and scored as correct. -/
theorem scanNormalized_empty_line_keeps_answer (tbl : Char → Char) :
    (∀ (rest : List Char) (previous : String),
        scanNormalized tbl ('\n' :: rest) previous = (normalizeString tbl previous, rest)) ∧
      scanNormalized tbl "\n".data "4" = ("4", []) ∧
      (startQuiz tbl 30 (fun _ => false) "4\n\n".data
        [⟨"2+2", "4"⟩, ⟨"1+3", "4"⟩]).score = 2 :=
  ⟨fun _ _ => rfl, rfl, rfl⟩

/-- C5 fails on the code: at end-of-stream `fmt.Scanln` returns `io.EOF`
without storing anything, so `scanNormalized` leaves the previous answer in
the shared variable `answer`.  After `4` on the first question, the exhausted
input on the second question is compared as `4` and scored as correct. -/
theorem scanNormalized_eof_keeps_answer (tbl : Char → Char) :
    (∀ previous : String,
        scanNormalized tbl [] previous = (normalizeString tbl previous, [])) ∧
      scanNormalized tbl [] "4" = ("4", []) ∧
      (startQuiz tbl 30 (fun _ => false) "4\n".data
        [⟨"2+2", "4"⟩, ⟨"1+3", "4"⟩]).score = 2 :=
  ⟨fun _ => rfl, rfl, rfl⟩

end Quizgo
